import Mathlib

/-!
Verification of the document-ingestion pipeline of the AISDK demo repository.

The development shallowly embeds, over `List Char`:
- the text chunker `chunkText` (with `createChunk`, the normalization chain,
  and the boundary-snapping scan) from the document-processing service;
- the assembler `processDocument` from the same file, with the external
  extraction calls (`processPDF`, `processURL`) supplied as parameters, since
  they are network/parser I/O;
- the post-response filtering of `queryVectors` from `lib/storage/chat-storage.ts`,
  with the vector store's response supplied as a parameter.

JavaScript semantics that matter here are modelled explicitly: `trim` removes
the JS whitespace set, `lastIndexOf(pat, pos)` returns the largest match
position `<= pos` (or -1), `x || d` replaces falsy values (0, empty string,
undefined) by the default, and `Math.max(a - b, c)` on numbers agrees with
truncated Nat subtraction because the other argument is nonnegative.
Similarity scores are modelled as rationals; the claims under scrutiny only
use order and zero-tests on them, never rounding. The `while` loop of the
chunker is modelled with explicit fuel because one of the claims is exactly
about its termination.
-/

namespace AISDK

/-- Characters removed by JavaScript's `String.prototype.trim` and matched by
`\s`: ASCII whitespace plus the Unicode space separators, line separators and
the BOM. -/
def isJsWS (c : Char) : Bool :=
  c = ' ' || c = '\t' || c = '\n' || c = '\x0b' || c = '\x0c' || c = '\r' ||
    c = '\u00A0' || c = '\u1680' || ('\u2000' ≤ c && c ≤ '\u200A') ||
    c = '\u2028' || c = '\u2029' || c = '\u202F' || c = '\u205F' ||
    c = '\u3000' || c = '\uFEFF'

/-- Drop trailing JS whitespace. -/
def trimRight (l : List Char) : List Char :=
  (l.reverse.dropWhile isJsWS).reverse

/-- JS `text.trim()` on a character list: drop leading and trailing JS
whitespace. -/
def jsTrim (l : List Char) : List Char :=
  (trimRight l).dropWhile isJsWS

/-- JS `text.replace(/\r\n/g, '\n')`. -/
def replaceCRLF : List Char → List Char
  | [] => []
  | [c] => [c]
  | c :: d :: rest =>
    if c = '\r' ∧ d = '\n' then '\n' :: replaceCRLF rest
    else c :: replaceCRLF (d :: rest)

/-- JS `text.replace(/\r/g, '\n')`. -/
def replaceCR (l : List Char) : List Char :=
  l.map (fun c => if c = '\r' then '\n' else c)

/-- A pending run of `k` consecutive newlines, as emitted by the global
replacement of `\n{3,}` with two newlines: runs of one or two survive, longer
runs become exactly two. -/
def emitNL (k : Nat) : List Char :=
  List.replicate (min k 2) '\n'

/-- Worker for `collapseNL`: `k` counts the newlines read but not yet
emitted. -/
def collapseNLAux : Nat → List Char → List Char
  | k, [] => emitNL k
  | k, c :: rest =>
    if c = '\n' then collapseNLAux (k + 1) rest
    else emitNL k ++ c :: collapseNLAux 0 rest

/-- JS `text.replace(/\n{3,}/g, '\n\n')`: every maximal run of three or more
newlines becomes exactly two. -/
def collapseNL (l : List Char) : List Char :=
  collapseNLAux 0 l

/-- The `cleanText` normalization of `chunkText`: unify line endings, collapse
3+ newlines to 2, then trim. -/
def normalizeText (l : List Char) : List Char :=
  jsTrim (collapseNL (replaceCR (replaceCRLF l)))

/-- Whether `pat` occurs in `t` starting at position `k`. -/
def matchesAt (t pat : List Char) (k : Nat) : Bool :=
  decide ((t.drop k).take pat.length = pat)

/-- JS `t.lastIndexOf(pat, pos)`: the largest position `k ≤ pos` at which
`pat` occurs in `t`, or `-1` when there is none. -/
def jsLastIndexOf (t pat : List Char) (pos : Nat) : Int :=
  match ((List.range (min pos t.length + 1)).filter (matchesAt t pat)).getLast? with
  | some k => (k : Int)
  | none => -1

/-- JS `t.slice(a, b)` for `0 ≤ a ≤ b`. -/
def jsSlice (t : List Char) (a b : Nat) : List Char :=
  (t.drop a).take (b - a)

/-- Worker for `wsRunCount`: the flag records whether the previous character
was whitespace. -/
def wsRunCountAux : Bool → List Char → Nat
  | _, [] => 0
  | inRun, c :: rest =>
    if isJsWS c then (if inRun then 0 else 1) + wsRunCountAux true rest
    else wsRunCountAux false rest

/-- Number of maximal runs of JS whitespace in `l`.  JS
`content.split(/\s+/).length` equals this count plus one. -/
def wsRunCount (l : List Char) : Nat :=
  wsRunCountAux false l

/-- The `'pdf' | 'url' | 'text'` source union of the repository's types. -/
inductive SourceKind where
  | pdf
  | url
  | text
deriving DecidableEq

/-- A `DocumentChunk` together with its flattened `ChunkMetadata`.  The
`id` field (`chunk-${Date.now()}-${index}`) is clock-dependent and carries no
information the claims mention, so it is omitted from the embedding. -/
structure DocumentChunk where
  documentId : List Char
  content : List Char
  index : Nat
  startIndex : Nat
  endIndex : Nat
  wordCount : Nat
  charCount : Nat
  source : SourceKind
  documentTitle : List Char
deriving DecidableEq

/-- `createChunk` from the document-processing service: builds the chunk
record; `documentId` starts empty and is set when the chunk is associated
with a document. -/
def createChunk (content : List Char) (index startIndex endIndex : Nat)
    (source : SourceKind) (documentTitle : List Char) : DocumentChunk :=
  { documentId := []
    content := content
    index := index
    startIndex := startIndex
    endIndex := endIndex
    wordCount := wsRunCount content + 1
    charCount := content.length
    source := source
    documentTitle := documentTitle }

/-- The `ChunkingOptions` record. -/
structure ChunkingOptions where
  chunkSize : Nat
  chunkOverlap : Nat
  minChunkSize : Nat
  preserveParagraphs : Bool
deriving DecidableEq

/-- `DEFAULT_CHUNKING_OPTIONS` from the source. -/
def DEFAULT_CHUNKING_OPTIONS : ChunkingOptions :=
  { chunkSize := 1000, chunkOverlap := 200, minChunkSize := 100,
    preserveParagraphs := true }

/-- One step of boundary selection in the scanning loop of `chunkText`: the
tentative hard cut at `s + chunkSize`, snapped back to a paragraph break or a
sentence end when `preserveParagraphs` is set and the cut is interior. -/
def computeEnd (t : List Char) (o : ChunkingOptions) (s : Nat) : Nat :=
  if o.preserveParagraphs && decide (min (s + o.chunkSize) t.length < t.length) then
    if (s + o.minChunkSize : Int) <
        jsLastIndexOf t ['\n', '\n'] (min (s + o.chunkSize) t.length) then
      (jsLastIndexOf t ['\n', '\n'] (min (s + o.chunkSize) t.length) + 2).toNat
    else
      if (s + o.minChunkSize : Int) <
          jsLastIndexOf t ['.'] (min (s + o.chunkSize) t.length) then
        (jsLastIndexOf t ['.'] (min (s + o.chunkSize) t.length) + 1).toNat
      else min (s + o.chunkSize) t.length
  else min (s + o.chunkSize) t.length

/-- Title constant used by `createChunk` calls inside the scanning loop. -/
def loopTitle : List Char := "Document".toList

/-- Title constant used by the single-chunk short-circuit. -/
def singleTitle : List Char := "Single Document".toList

/-- The `while (startIndex < cleanText.length)` loop of `chunkText`, with
explicit fuel; `none` means the fuel ran out before the loop finished.  `s`
is `startIndex` and `i` is `chunkIndex`.  The emitted chunks are returned in
emission order. -/
def chunkLoop (t : List Char) (o : ChunkingOptions) :
    Nat → Nat → Nat → Option (List DocumentChunk)
  | 0, _, _ => none
  | fuel + 1, s, i =>
    if s < t.length then
      let e := computeEnd t o s
      let c := jsTrim (jsSlice t s e)
      let ns := max (e - o.chunkOverlap) (s + o.minChunkSize)
      if o.minChunkSize ≤ c.length then
        if e ≤ ns then some [createChunk c i s e SourceKind.text loopTitle]
        else
          (chunkLoop t o fuel ns (i + 1)).map
            (fun r => createChunk c i s e SourceKind.text loopTitle :: r)
      else
        if e ≤ ns then some []
        else chunkLoop t o fuel ns i
    else some []

/-- `chunkText` from the document-processing service, with explicit fuel for
its scanning loop.  The blank guard and the single-chunk short-circuit do not
consume fuel. -/
def chunkText (fuel : Nat) (text : List Char) (o : ChunkingOptions) :
    Option (List DocumentChunk) :=
  if jsTrim text = [] then some []
  else
    if (normalizeText text).length ≤ o.chunkSize then
      some [createChunk (normalizeText text) 0 0 (normalizeText text).length
        SourceKind.text singleTitle]
    else
      chunkLoop (normalizeText text) o fuel 0 0

/-- The source `chunkText` terminates on `text` with options `o` exactly when
some finite fuel suffices for the embedded loop. -/
def ChunkingTerminatesOn (text : List Char) (o : ChunkingOptions) : Prop :=
  ∃ fuel, (chunkText fuel text o).isSome

/-- Non-whitespace characters of a list, in order. -/
def filterNW (l : List Char) : List Char :=
  l.filter (fun c => !isJsWS c)

/-- The document lifecycle status union. -/
inductive DocStatus where
  | processing
  | completed
  | error
deriving DecidableEq

/-- The source argument of `processDocument`.  The two external extraction
calls are I/O (`processPDF` parses a binary with `pdf-parse`, `processURL`
fetches over the network), so their outcomes are supplied as parameters: an
`Except` value carries either the thrown error message or the extracted
content (for `url` also the optional page title recovered from the markup;
`none` models an absent/undefined `metadata.title`). -/
inductive DocSource where
  | pdf (extraction : Except (List Char) (List Char)) (filename : List Char)
  | url (extraction : Except (List Char) (List Char × Option (List Char)))
      (urlAddr : List Char)
  | text (content : List Char) (title : List Char)

/-- JS `a || b` for an optional string `a`: an absent or empty string is
falsy and is replaced by the default. -/
def jsOrStr (a : Option (List Char)) (b : List Char) : List Char :=
  match a with
  | some t => if t = [] then b else t
  | none => b

/-- The `switch (source.type)` of `processDocument`: content, title and source
kind per variant.  For `pdf` the title is the filename; for `url` it is
`metadata.title || source.url`. -/
def runExtraction : DocSource → Except (List Char) (List Char × List Char × SourceKind)
  | .pdf ext filename => ext.map (fun content => (content, filename, SourceKind.pdf))
  | .url ext urlAddr => ext.map (fun r => (r.1, jsOrStr r.2 urlAddr, SourceKind.url))
  | .text content title => Except.ok (content, title, SourceKind.text)

/-- The `Document` record as far as the claims inspect it: the clock-stamped
fields (`createdAt`, `updatedAt`, `processedAt`) and the raw extractor
metadata passthrough are omitted, and the generated id
(`doc-${Date.now()}`) is supplied as a parameter. -/
structure RagDocument where
  id : List Char
  title : List Char
  content : List Char
  source : SourceKind
  chunkCount : Nat
  status : DocStatus
  chunks : List DocumentChunk
deriving DecidableEq

/-- The `DocumentProcessingResult` record (`processingTime` omitted as
clock-dependent).  In the failure branch the source returns `{} as Document`,
an empty object observed by no caller; it is modelled as `none`. -/
structure DocumentProcessingResult where
  document : Option RagDocument
  chunks : List DocumentChunk
  success : Bool
  errorMsg : Option (List Char)
deriving DecidableEq

/-- `processDocument` from the document-processing service: run the
extraction, build the document in `processing` status, chunk the content,
stamp every chunk with the document id and title, then record the chunk count
and flip the status to `completed`.  A thrown extraction error is caught and
returned as a failure result with no document and no chunks.  The result is
`none` only when the chunking loop runs out of fuel. -/
def processDocument (fuel : Nat) (docId : List Char) (source : DocSource)
    (o : ChunkingOptions) : Option DocumentProcessingResult :=
  match runExtraction source with
  | .error msg =>
    some { document := none
           chunks := []
           success := false
           errorMsg := some msg }
  | .ok (content, title, kind) =>
    match chunkText fuel content o with
    | none => none
    | some rawChunks =>
      let chunks := rawChunks.map
        (fun c => { c with documentId := docId, documentTitle := title })
      some { document := some { id := docId
                                title := title
                                content := content
                                source := kind
                                chunkCount := chunks.length
                                status := DocStatus.completed
                                chunks := chunks }
             chunks := chunks
             success := true
             errorMsg := none }

/-! ### The vector-store query model -/

/-- One match of the Pinecone query response: `score` is optional in the SDK
response type, and similarity scores are modelled as exact rationals (the
claims only compare them and test them against zero).  Of the stored
metadata only the denormalized `content` string is read by `queryVectors`. -/
structure PineconeMatch where
  id : List Char
  score : Option ℚ
  content : Option (List Char)
deriving DecidableEq

/-- The `VectorSearchResult` shape produced by `queryVectors`. -/
structure VectorSearchResult where
  id : List Char
  score : ℚ
  content : List Char
deriving DecidableEq

/-- The caller-facing options of `queryVectors`; absent fields are
`undefined`. -/
structure QueryOptions where
  topK : Option Nat
  threshold : Option ℚ

/-- JS `a || b` for an optional number: `undefined` and `0` are falsy. -/
def jsOrNat (a : Option Nat) (b : Nat) : Nat :=
  match a with
  | some v => if v = 0 then b else v
  | none => b

/-- JS `a || b` for an optional rational score. -/
def jsOrRat (a : Option ℚ) (b : ℚ) : ℚ :=
  match a with
  | some v => if v = 0 then b else v
  | none => b

/-- `options.topK || 5`. -/
def effTopK (o : QueryOptions) : Nat :=
  jsOrNat o.topK 5

/-- `options.threshold || 0.3`: the float literal `0.3` is modelled as the
rational `3/10` (written `mkRat 3 10`, which the kernel can evaluate); the
claims only use that it is positive and fixed. -/
def effThreshold (o : QueryOptions) : ℚ :=
  jsOrRat o.threshold (mkRat 3 10)

/-- The filter predicate `match.score && match.score >= threshold`: an absent
or zero score is falsy, so such matches are dropped no matter the
threshold. -/
def keepMatch (th : ℚ) (m : PineconeMatch) : Bool :=
  match m.score with
  | none => false
  | some sc => if sc = 0 then false else decide (th ≤ sc)

/-- The `.map` projection of `queryVectors`: `score: match.score || 0`,
`content: metadata?.content || ''`. -/
def toSearchResult (m : PineconeMatch) : VectorSearchResult :=
  { id := m.id
    score := jsOrRat m.score 0
    content := jsOrStr m.content [] }

/-- The response post-processing of `queryVectors` in
`lib/storage/chat-storage.ts`: the Pinecone call itself is network I/O, so
the response match list is a parameter.  The function filters by the
defaulted threshold and projects; it neither sorts nor truncates. -/
def queryVectors (o : QueryOptions) (ms : List PineconeMatch) :
    List VectorSearchResult :=
  (ms.filter (keepMatch (effThreshold o))).map toSearchResult

/-- Scores sorted in descending order. -/
def SortedByScoreDesc (l : List ℚ) : Prop :=
  List.Pairwise (fun a b => b ≤ a) l

instance (l : List ℚ) : Decidable (SortedByScoreDesc l) :=
  List.instDecidablePairwise l

/-- The raw score of a match as Pinecone sorts it (`0` for an absent
score). -/
def scoreOf (m : PineconeMatch) : ℚ :=
  jsOrRat m.score 0

/-! ### Concrete configurations used by witnesses and counterexamples -/

/-- `chunkSize 12, overlap 2, minChunkSize 2, preserveParagraphs` — a
multi-chunk configuration exercising paragraph snapping. -/
def optSnap : ChunkingOptions := ⟨12, 2, 2, true⟩

/-- `chunkSize 10, overlap 0, minChunkSize 2, preserveParagraphs` — the
configuration under which sentence snapping emits an 11-character chunk. -/
def optPeriod : ChunkingOptions := ⟨10, 0, 2, true⟩

/-- `chunkSize 2, overlap 2 (= chunkSize), minChunkSize 1`. -/
def optTight : ChunkingOptions := ⟨2, 2, 1, true⟩

/-- `chunkSize 1, overlap 1, minChunkSize 0` — the non-advancing
configuration. -/
def optStuck : ChunkingOptions := ⟨1, 1, 0, false⟩

/-- `chunkSize 3, overlap 0, minChunkSize 1`. -/
def optExact : ChunkingOptions := ⟨3, 0, 1, true⟩

/-- `chunkSize 1, overlap 0, minChunkSize 1`. -/
def optOne : ChunkingOptions := ⟨1, 0, 1, false⟩

/-- The failure result returned when a pdf extraction throws `"boom"`. -/
def failedResult : DocumentProcessingResult :=
  ⟨none, [], false, some "boom".toList⟩

/-! ### Basic facts about trimming and normalization

The normalization chain only rewrites whitespace: the subsequence of
non-whitespace characters is untouched and the text never grows.  These two
facts drive the blank-input guard and the single-chunk short-circuit. -/

theorem filterNW_dropWhile (q : Char → Bool) (hq : ∀ c, q c = true → isJsWS c = true) :
    ∀ l : List Char, filterNW (l.dropWhile q) = filterNW l := by
  intro l
  induction l with
  | nil => rfl
  | cons c rest ih =>
    rw [List.dropWhile_cons]
    by_cases h : q c = true
    · rw [if_pos h, ih]
      simp [filterNW, List.filter_cons, hq c h]
    · rw [if_neg h]

theorem filterNW_reverse (l : List Char) : filterNW l.reverse = (filterNW l).reverse :=
  List.filter_reverse _ l

theorem filterNW_trimRight (l : List Char) : filterNW (trimRight l) = filterNW l := by
  unfold trimRight
  rw [filterNW_reverse, filterNW_dropWhile isJsWS (fun _ h => h), filterNW_reverse,
    List.reverse_reverse]

theorem filterNW_jsTrim (l : List Char) : filterNW (jsTrim l) = filterNW l := by
  unfold jsTrim
  rw [filterNW_dropWhile isJsWS (fun _ h => h), filterNW_trimRight]

theorem jsTrim_eq_nil_iff (l : List Char) : jsTrim l = [] ↔ filterNW l = [] := by
  constructor
  · intro h
    rw [← filterNW_jsTrim l, h]
    rfl
  · intro h
    have hall : ∀ c ∈ l, isJsWS c = true := by
      intro c hc
      by_contra hw
      have : c ∈ filterNW l := by
        simp [filterNW, List.mem_filter, hc, hw]
      rw [h] at this
      exact absurd this (List.not_mem_nil c)
    have hrev : l.reverse.dropWhile isJsWS = [] := by
      rw [List.dropWhile_eq_nil_iff]
      intro c hc
      exact hall c (List.mem_reverse.mp hc)
    unfold jsTrim trimRight
    rw [hrev]
    rfl

theorem filterNW_cons_ws (c : Char) (l : List Char) (h : isJsWS c = true) :
    filterNW (c :: l) = filterNW l := by
  simp [filterNW, List.filter_cons, h]

theorem filterNW_cons (c : Char) (l : List Char) :
    filterNW (c :: l) = (if isJsWS c then [] else [c]) ++ filterNW l := by
  by_cases h : isJsWS c <;> simp [filterNW, List.filter_cons, h]

theorem filterNW_replaceCRLF (l : List Char) : filterNW (replaceCRLF l) = filterNW l := by
  induction l using replaceCRLF.induct with
  | case1 => rfl
  | case2 c => rfl
  | case3 c d rest h ih =>
    obtain ⟨hc, hd⟩ := h
    subst hc; subst hd
    show filterNW (if ('\r' : Char) = '\r' ∧ ('\n' : Char) = '\n' then '\n' :: replaceCRLF rest
      else _) = _
    rw [if_pos ⟨rfl, rfl⟩]
    rw [filterNW_cons_ws _ _ (by decide), filterNW_cons_ws _ _ (by decide),
      filterNW_cons_ws _ _ (by decide), ih]
  | case4 c d rest h ih =>
    show filterNW (if c = '\r' ∧ d = '\n' then '\n' :: replaceCRLF rest
      else c :: replaceCRLF (d :: rest)) = _
    rw [if_neg h, filterNW_cons, filterNW_cons, ih]

theorem filterNW_replaceCR (l : List Char) : filterNW (replaceCR l) = filterNW l := by
  induction l with
  | nil => rfl
  | cons c rest ih =>
    show filterNW ((if c = '\r' then '\n' else c) :: replaceCR rest) = filterNW (c :: rest)
    by_cases h : c = '\r'
    · subst h
      rw [if_pos rfl, filterNW_cons_ws _ _ (by decide), filterNW_cons_ws _ _ (by decide), ih]
    · rw [if_neg h, filterNW_cons, filterNW_cons, ih]

theorem filterNW_emitNL (k : Nat) : filterNW (emitNL k) = [] := by
  unfold emitNL filterNW
  rw [List.filter_eq_nil_iff]
  intro a ha
  have := List.eq_of_mem_replicate ha
  subst this
  decide

theorem filterNW_collapseNLAux (l : List Char) :
    ∀ k, filterNW (collapseNLAux k l) = filterNW l := by
  induction l with
  | nil =>
    intro k
    show filterNW (emitNL k) = filterNW []
    rw [filterNW_emitNL]
    rfl
  | cons c rest ih =>
    intro k
    show filterNW (if c = '\n' then collapseNLAux (k + 1) rest
      else emitNL k ++ c :: collapseNLAux 0 rest) = filterNW (c :: rest)
    by_cases h : c = '\n'
    · subst h
      rw [if_pos rfl, ih]
      simp [filterNW, List.filter_cons, isJsWS]
    · rw [if_neg h]
      simp only [filterNW, List.filter_append] at *
      rw [show List.filter (fun c => !isJsWS c) (emitNL k) = [] from filterNW_emitNL k]
      simp only [List.nil_append, List.filter_cons] at *
      cases hws : !isJsWS c <;> simp [hws, ih]

theorem filterNW_collapseNL (l : List Char) : filterNW (collapseNL l) = filterNW l :=
  filterNW_collapseNLAux l 0

theorem filterNW_normalizeText (l : List Char) : filterNW (normalizeText l) = filterNW l := by
  unfold normalizeText
  rw [filterNW_jsTrim, filterNW_collapseNL, filterNW_replaceCR, filterNW_replaceCRLF]

/-- A non-blank normalized text can only come from a non-blank input: the
blank guard of `chunkText` never fires when the single-chunk short-circuit
would apply to a nonempty normalization. -/
theorem jsTrim_ne_nil_of_normalize (l : List Char) (h : normalizeText l ≠ []) :
    jsTrim l ≠ [] := by
  intro hl
  apply h
  rw [jsTrim_eq_nil_iff] at hl
  unfold normalizeText
  rw [jsTrim_eq_nil_iff, filterNW_collapseNL, filterNW_replaceCR, filterNW_replaceCRLF]
  exact hl

theorem length_dropWhile_le' (p : Char → Bool) (l : List Char) :
    (l.dropWhile p).length ≤ l.length :=
  (List.dropWhile_sublist p).length_le

theorem length_trimRight_le (l : List Char) : (trimRight l).length ≤ l.length := by
  unfold trimRight
  rw [List.length_reverse]
  calc (l.reverse.dropWhile isJsWS).length ≤ l.reverse.length := length_dropWhile_le' _ _
    _ = l.length := List.length_reverse l

theorem length_jsTrim_le (l : List Char) : (jsTrim l).length ≤ l.length :=
  le_trans (length_dropWhile_le' _ _) (length_trimRight_le l)

theorem length_replaceCRLF_le (l : List Char) : (replaceCRLF l).length ≤ l.length := by
  induction l using replaceCRLF.induct with
  | case1 => simp [replaceCRLF]
  | case2 c => simp [replaceCRLF]
  | case3 c d rest h ih =>
    show (if c = '\r' ∧ d = '\n' then '\n' :: replaceCRLF rest
      else c :: replaceCRLF (d :: rest)).length ≤ (c :: d :: rest).length
    rw [if_pos h]
    simp only [List.length_cons] at ih ⊢
    omega
  | case4 c d rest h ih =>
    show (if c = '\r' ∧ d = '\n' then '\n' :: replaceCRLF rest
      else c :: replaceCRLF (d :: rest)).length ≤ (c :: d :: rest).length
    rw [if_neg h]
    simp only [List.length_cons] at ih ⊢
    omega

theorem length_replaceCR (l : List Char) : (replaceCR l).length = l.length :=
  List.length_map l _

theorem length_collapseNLAux_le (l : List Char) :
    ∀ k, (collapseNLAux k l).length ≤ min k 2 + l.length := by
  induction l with
  | nil =>
    intro k
    show (emitNL k).length ≤ min k 2 + 0
    simp [emitNL]
  | cons c rest ih =>
    intro k
    show (if c = '\n' then collapseNLAux (k + 1) rest
      else emitNL k ++ c :: collapseNLAux 0 rest).length ≤ min k 2 + (c :: rest).length
    by_cases h : c = '\n'
    · rw [if_pos h]
      calc (collapseNLAux (k + 1) rest).length ≤ min (k + 1) 2 + rest.length := ih (k + 1)
        _ ≤ min k 2 + (c :: rest).length := by simp [List.length_cons]; omega
    · rw [if_neg h]
      have := ih 0
      simp only [List.length_append, List.length_cons, emitNL, List.length_replicate] at *
      omega

theorem length_collapseNL_le (l : List Char) : (collapseNL l).length ≤ l.length := by
  have := length_collapseNLAux_le l 0
  simpa [collapseNL] using this

theorem length_normalizeText_le (l : List Char) : (normalizeText l).length ≤ l.length :=
  calc (normalizeText l).length
      ≤ (collapseNL (replaceCR (replaceCRLF l))).length := length_jsTrim_le _
    _ ≤ (replaceCR (replaceCRLF l)).length := length_collapseNL_le _
    _ = (replaceCRLF l).length := length_replaceCR _
    _ ≤ l.length := length_replaceCRLF_le _

/-! ### Structure of `jsTrim` -/

theorem dropWhile_idem (p : Char → Bool) (l : List Char) :
    (l.dropWhile p).dropWhile p = l.dropWhile p := by
  induction l with
  | nil => rfl
  | cons c rest ih =>
    by_cases h : p c
    · simp [List.dropWhile_cons, h, ih]
    · simp [List.dropWhile_cons, h]

theorem trimRight_trimRight (l : List Char) : trimRight (trimRight l) = trimRight l := by
  unfold trimRight
  rw [List.reverse_reverse, dropWhile_idem]

theorem head_dropWhile_not (p : Char → Bool) (l : List Char) :
    ∀ c, (l.dropWhile p).head? = some c → p c = false := by
  induction l with
  | nil => intro c hc; exact absurd hc (by simp)
  | cons d rest ih =>
    intro c hc
    by_cases h : p d
    · rw [List.dropWhile_cons_of_pos h] at hc
      exact ih c hc
    · rw [List.dropWhile_cons_of_neg h] at hc
      have : d = c := by simpa using hc
      subst this
      simpa using h

theorem dropWhile_eq_self_of_head (p : Char → Bool) (l : List Char)
    (h : ∀ c, l.head? = some c → p c = false) : l.dropWhile p = l := by
  cases l with
  | nil => rfl
  | cons c rest =>
    rw [List.dropWhile_cons_of_neg]
    simp [h c rfl]

theorem head?_append_right {u v : List Char} (hv : v ≠ []) :
    (u ++ v).reverse.head? = v.reverse.head? := by
  rw [List.reverse_append, List.head?_append]
  cases hvr : v.reverse.head? with
  | none =>
    rw [List.head?_eq_none_iff] at hvr
    exact absurd (by simpa using hvr) hv
  | some x => rfl

theorem trimRight_eq_self_of (l : List Char)
    (h : ∀ c, l.reverse.head? = some c → isJsWS c = false) : trimRight l = l := by
  unfold trimRight
  rw [dropWhile_eq_self_of_head _ _ h, List.reverse_reverse]

theorem trimRight_fix_head {m : List Char} (hm : trimRight m = m) :
    ∀ c, m.reverse.head? = some c → isJsWS c = false := by
  intro c hc
  have hrev : m.reverse.dropWhile isJsWS = m.reverse := by
    have := congrArg List.reverse hm
    rwa [trimRight, List.reverse_reverse] at this
  rw [← hrev] at hc
  exact head_dropWhile_not isJsWS m.reverse c hc

theorem trimRight_dropWhile_of_fix {m : List Char} (hm : trimRight m = m) :
    trimRight (m.dropWhile isJsWS) = m.dropWhile isJsWS := by
  by_cases hv : m.dropWhile isJsWS = []
  · rw [hv]
    rfl
  · apply trimRight_eq_self_of
    intro c hc
    apply trimRight_fix_head hm
    calc m.reverse.head?
        = ((m.takeWhile isJsWS ++ m.dropWhile isJsWS)).reverse.head? := by
          rw [List.takeWhile_append_dropWhile]
      _ = (m.dropWhile isJsWS).reverse.head? := head?_append_right hv
      _ = some c := hc

/-- `trim` is idempotent, so the normalized text is its own trim: the content
of a single-chunk result is already in trimmed form. -/
theorem jsTrim_idem (l : List Char) : jsTrim (jsTrim l) = jsTrim l := by
  unfold jsTrim
  rw [trimRight_dropWhile_of_fix (trimRight_trimRight l)]
  exact dropWhile_idem _ _

theorem trimRight_append_ws {l w : List Char} (hw : ∀ c ∈ w, isJsWS c = true) :
    trimRight (l ++ w) = trimRight l := by
  unfold trimRight
  rw [List.reverse_append, List.dropWhile_append_of_pos]
  intro a ha
  exact hw a (List.mem_reverse.mp ha)

/-- Appending pure whitespace does not change the trim: the two newlines that
paragraph snapping appends past the tentative cut are removed again by the
per-chunk trim. -/
theorem jsTrim_append_ws {l w : List Char} (hw : ∀ c ∈ w, isJsWS c = true) :
    jsTrim (l ++ w) = jsTrim l := by
  unfold jsTrim
  rw [trimRight_append_ws hw]

theorem take_add' (l : List Char) (m n : Nat) :
    l.take (m + n) = l.take m ++ (l.drop m).take n := by
  induction m generalizing l with
  | zero => simp
  | succ k ih =>
    cases l with
    | nil => simp
    | cons a as =>
      have h1 : k + 1 + n = (k + n) + 1 := by omega
      rw [h1]
      simp only [List.take_succ_cons, List.drop_succ_cons]
      rw [List.cons_append, ih]

/-! ### `jsLastIndexOf` and the snapped chunk end -/

theorem jsLastIndexOf_spec (t pat : List Char) (pos : Nat)
    (h : 0 ≤ jsLastIndexOf t pat pos) :
    (jsLastIndexOf t pat pos).toNat ≤ min pos t.length ∧
      matchesAt t pat (jsLastIndexOf t pat pos).toNat = true := by
  unfold jsLastIndexOf at h ⊢
  cases hg : ((List.range (min pos t.length + 1)).filter (matchesAt t pat)).getLast? with
  | none =>
    rw [hg] at h
    exact absurd h (by decide)
  | some k =>
    have hk : k ∈ (List.range (min pos t.length + 1)).filter (matchesAt t pat) :=
      List.mem_of_getLast?_eq_some hg
    rw [List.mem_filter, List.mem_range] at hk
    have htn : ((k : Int)).toNat = k := Int.toNat_natCast k
    show ((k : Int)).toNat ≤ min pos t.length ∧ matchesAt t pat ((k : Int)).toNat = true
    rw [htn]
    exact ⟨by omega, hk.2⟩

theorem matchesAt_slice {t pat : List Char} {k : Nat} (h : matchesAt t pat k = true) :
    (t.drop k).take pat.length = pat := by
  unfold matchesAt at h
  exact of_decide_eq_true h

theorem matchesAt_bound {t pat : List Char} {k : Nat} (hp : 0 < pat.length)
    (h : matchesAt t pat k = true) : k + pat.length ≤ t.length := by
  have hs := matchesAt_slice h
  have hlen : ((t.drop k).take pat.length).length = pat.length := by rw [hs]
  rw [List.length_take, List.length_drop] at hlen
  rw [Nat.min_def] at hlen
  split at hlen <;> omega

theorem length_jsTrim_slice_le (t : List Char) (s e : Nat) :
    (jsTrim (jsSlice t s e)).length ≤ e - s := by
  refine le_trans (length_jsTrim_le _) ?_
  unfold jsSlice
  rw [List.length_take]
  exact min_le_left _ _

theorem computeEnd_bounds (t : List Char) (o : ChunkingOptions) (s : Nat)
    (hs : s < t.length) :
    s ≤ computeEnd t o s ∧ computeEnd t o s ≤ t.length := by
  unfold computeEnd
  have he0l : min (s + o.chunkSize) t.length ≤ t.length := min_le_right _ _
  have hse0 : s ≤ min (s + o.chunkSize) t.length :=
    le_min (Nat.le_add_right _ _) (le_of_lt hs)
  split_ifs with h1 h2 h3
  · have hp0 : 0 ≤ jsLastIndexOf t ['\n', '\n'] (min (s + o.chunkSize) t.length) := by omega
    obtain ⟨hle, hmatch⟩ := jsLastIndexOf_spec t ['\n', '\n'] _ hp0
    have hbound := matchesAt_bound (by decide) hmatch
    simp only [List.length_cons, List.length_nil] at hbound
    omega
  · have hq0 : 0 ≤ jsLastIndexOf t ['.'] (min (s + o.chunkSize) t.length) := by omega
    obtain ⟨hle, hmatch⟩ := jsLastIndexOf_spec t ['.'] _ hq0
    have hbound := matchesAt_bound (by decide) hmatch
    simp only [List.length_cons, List.length_nil] at hbound
    omega
  · exact ⟨hse0, he0l⟩
  · exact ⟨hse0, he0l⟩

/-- Content bound for a loop chunk: the trimmed window never exceeds
`chunkSize + 1` characters.  The `+ 1` is real: sentence snapping can move the
cut one past the tentative end when the period sits exactly there; paragraph
snapping can move it two past, but the two characters it adds are the newline
pair, which the trim removes again. -/
theorem content_length_bound (t : List Char) (o : ChunkingOptions) (s : Nat)
    (_hs : s < t.length) :
    (jsTrim (jsSlice t s (computeEnd t o s))).length ≤ o.chunkSize + 1 := by
  unfold computeEnd
  have hbase : (jsTrim (jsSlice t s (min (s + o.chunkSize) t.length))).length ≤
      o.chunkSize + 1 := by
    refine le_trans (length_jsTrim_slice_le _ _ _) ?_
    have := min_le_left (s + o.chunkSize) t.length
    omega
  split_ifs with h1 h2 h3
  · have hp0 : 0 ≤ jsLastIndexOf t ['\n', '\n'] (min (s + o.chunkSize) t.length) := by
      omega
    obtain ⟨hle, hmatch⟩ := jsLastIndexOf_spec t ['\n', '\n'] _ hp0
    set p := jsLastIndexOf t ['\n', '\n'] (min (s + o.chunkSize) t.length) with hpdef
    have hsp : s ≤ p.toNat := by omega
    have htoNat : (p + 2).toNat = p.toNat + 2 := by omega
    rw [htoNat]
    have hsplit : jsSlice t s (p.toNat + 2) =
        jsSlice t s p.toNat ++ (t.drop p.toNat).take 2 := by
      unfold jsSlice
      have h2 : p.toNat + 2 - s = (p.toNat - s) + 2 := by omega
      rw [h2, take_add', List.drop_drop]
      have h3 : s + (p.toNat - s) = p.toNat := by omega
      rw [h3]
    have hnl : (t.drop p.toNat).take 2 = ['\n', '\n'] := by
      have := matchesAt_slice hmatch
      simpa using this
    rw [hsplit, hnl, jsTrim_append_ws (by decide)]
    refine le_trans (length_jsTrim_slice_le _ _ _) ?_
    have hcs : p.toNat ≤ s + o.chunkSize := by
      have := min_le_left (s + o.chunkSize) t.length
      omega
    omega
  · have hq0 : 0 ≤ jsLastIndexOf t ['.'] (min (s + o.chunkSize) t.length) := by omega
    obtain ⟨hle, hmatch⟩ := jsLastIndexOf_spec t ['.'] _ hq0
    set q := jsLastIndexOf t ['.'] (min (s + o.chunkSize) t.length) with hqdef
    refine le_trans (length_jsTrim_slice_le _ _ _) ?_
    have hcs : q.toNat ≤ s + o.chunkSize := by
      have := min_le_left (s + o.chunkSize) t.length
      omega
    omega
  · exact hbase
  · exact hbase

/-! ### Invariants of the scanning loop -/

theorem createChunk_content (content : List Char) (i s e : Nat) (k : SourceKind)
    (ttl : List Char) : (createChunk content i s e k ttl).content = content := rfl

theorem createChunk_index (content : List Char) (i s e : Nat) (k : SourceKind)
    (ttl : List Char) : (createChunk content i s e k ttl).index = i := rfl

theorem createChunk_startIndex (content : List Char) (i s e : Nat) (k : SourceKind)
    (ttl : List Char) : (createChunk content i s e k ttl).startIndex = s := rfl

theorem createChunk_endIndex (content : List Char) (i s e : Nat) (k : SourceKind)
    (ttl : List Char) : (createChunk content i s e k ttl).endIndex = e := rfl

theorem createChunk_source (content : List Char) (i s e : Nat) (k : SourceKind)
    (ttl : List Char) : (createChunk content i s e k ttl).source = k := rfl

/-- One unfolding of the loop body, matching the JS `while` iteration: bound
the window, snap it, trim it, emit it when large enough, then advance with
overlap or break when the window would not advance. -/
theorem chunkLoop_succ (t : List Char) (o : ChunkingOptions) (fuel s i : Nat) :
    chunkLoop t o (fuel + 1) s i =
      if s < t.length then
        if o.minChunkSize ≤ (jsTrim (jsSlice t s (computeEnd t o s))).length then
          if computeEnd t o s ≤
              max (computeEnd t o s - o.chunkOverlap) (s + o.minChunkSize) then
            some [createChunk (jsTrim (jsSlice t s (computeEnd t o s))) i s
              (computeEnd t o s) SourceKind.text loopTitle]
          else
            (chunkLoop t o fuel
              (max (computeEnd t o s - o.chunkOverlap) (s + o.minChunkSize)) (i + 1)).map
              (fun r => createChunk (jsTrim (jsSlice t s (computeEnd t o s))) i s
                (computeEnd t o s) SourceKind.text loopTitle :: r)
        else
          if computeEnd t o s ≤
              max (computeEnd t o s - o.chunkOverlap) (s + o.minChunkSize) then
            some []
          else
            chunkLoop t o fuel
              (max (computeEnd t o s - o.chunkOverlap) (s + o.minChunkSize)) i
      else some [] := rfl

/-- Every chunk the loop emits passed the `minChunkSize` guard. -/
theorem chunkLoop_minSize (t : List Char) (o : ChunkingOptions) :
    ∀ fuel s i res, chunkLoop t o fuel s i = some res →
      ∀ c ∈ res, o.minChunkSize ≤ c.content.length := by
  intro fuel
  induction fuel with
  | zero =>
    intro s i res h
    exact absurd h (by simp [chunkLoop])
  | succ n ih =>
    intro s i res h
    rw [chunkLoop_succ] at h
    split_ifs at h with h1 h2 h3 h4
    · have hres := Option.some.inj h
      subst hres
      intro c hc
      rw [List.mem_singleton] at hc
      subst hc
      rw [createChunk_content]
      exact h2
    · rw [Option.map_eq_some'] at h
      obtain ⟨r, hr, hres⟩ := h
      subst hres
      intro c hc
      rcases List.mem_cons.mp hc with hc | hc
      · subst hc
        rw [createChunk_content]
        exact h2
      · exact ih _ _ _ hr c hc
    · have hres := Option.some.inj h
      subst hres
      intro c hc
      exact absurd hc (List.not_mem_nil c)
    · exact ih _ _ _ h
    · have hres := Option.some.inj h
      subst hres
      intro c hc
      exact absurd hc (List.not_mem_nil c)

/-- Every chunk the loop emits has content of at most `chunkSize + 1`
characters. -/
theorem chunkLoop_contentBound (t : List Char) (o : ChunkingOptions) :
    ∀ fuel s i res, chunkLoop t o fuel s i = some res →
      ∀ c ∈ res, c.content.length ≤ o.chunkSize + 1 := by
  intro fuel
  induction fuel with
  | zero =>
    intro s i res h
    exact absurd h (by simp [chunkLoop])
  | succ n ih =>
    intro s i res h
    rw [chunkLoop_succ] at h
    split_ifs at h with h1 h2 h3 h4
    · have hres := Option.some.inj h
      subst hres
      intro c hc
      rw [List.mem_singleton] at hc
      subst hc
      rw [createChunk_content]
      exact content_length_bound t o s h1
    · rw [Option.map_eq_some'] at h
      obtain ⟨r, hr, hres⟩ := h
      subst hres
      intro c hc
      rcases List.mem_cons.mp hc with hc | hc
      · subst hc
        rw [createChunk_content]
        exact content_length_bound t o s h1
      · exact ih _ _ _ hr c hc
    · have hres := Option.some.inj h
      subst hres
      intro c hc
      exact absurd hc (List.not_mem_nil c)
    · exact ih _ _ _ h
    · have hres := Option.some.inj h
      subst hres
      intro c hc
      exact absurd hc (List.not_mem_nil c)

/-- Full loop invariant under a positive `minChunkSize`: indices are
consecutive from the starting chunk counter, start offsets strictly increase,
and every chunk records a window `s ≤ startIndex < endIndex ≤ |t|` whose
trimmed slice is its content. -/
theorem chunkLoop_spec (t : List Char) (o : ChunkingOptions)
    (hmin : 1 ≤ o.minChunkSize) :
    ∀ fuel s i res, chunkLoop t o fuel s i = some res →
      res.map DocumentChunk.index = List.range' i res.length ∧
      res.Pairwise (fun a b => a.startIndex < b.startIndex) ∧
      ∀ c ∈ res, s ≤ c.startIndex ∧ c.startIndex < c.endIndex ∧
        c.endIndex ≤ t.length ∧
        c.content = jsTrim (jsSlice t c.startIndex c.endIndex) := by
  intro fuel
  induction fuel with
  | zero =>
    intro s i res h
    exact absurd h (by simp [chunkLoop])
  | succ n ih =>
    intro s i res h
    rw [chunkLoop_succ] at h
    have hns : s + o.minChunkSize ≤
        max (computeEnd t o s - o.chunkOverlap) (s + o.minChunkSize) :=
      le_max_right _ _
    split_ifs at h with h1 h2 h3 h4
    · have hres := Option.some.inj h
      subst hres
      obtain ⟨hb1, hb2⟩ := computeEnd_bounds t o s h1
      refine ⟨rfl, by simp, ?_⟩
      intro c hc
      rw [List.mem_singleton] at hc
      subst hc
      have hlen : 1 ≤ (jsTrim (jsSlice t s (computeEnd t o s))).length := by omega
      have hslice := length_jsTrim_slice_le t s (computeEnd t o s)
      refine ⟨le_refl _, by rw [createChunk_startIndex, createChunk_endIndex]; omega,
        by rw [createChunk_endIndex]; exact hb2, rfl⟩
    · rw [Option.map_eq_some'] at h
      obtain ⟨r, hr, hres⟩ := h
      subst hres
      obtain ⟨hb1, hb2⟩ := computeEnd_bounds t o s h1
      obtain ⟨ihmap, ihpw, ihall⟩ := ih _ _ _ hr
      refine ⟨?_, ?_, ?_⟩
      · rw [List.map_cons, ihmap, List.length_cons, List.range'_succ, createChunk_index]
      · rw [List.pairwise_cons]
        refine ⟨?_, ihpw⟩
        intro b hb
        have := (ihall b hb).1
        rw [createChunk_startIndex]
        omega
      · intro c hc
        rcases List.mem_cons.mp hc with hc | hc
        · subst hc
          have hlen : 1 ≤ (jsTrim (jsSlice t s (computeEnd t o s))).length := by omega
          have hslice := length_jsTrim_slice_le t s (computeEnd t o s)
          refine ⟨le_refl _, by rw [createChunk_startIndex, createChunk_endIndex]; omega,
            by rw [createChunk_endIndex]; exact hb2, rfl⟩
        · obtain ⟨ha, hb', hc', hd⟩ := ihall c hc
          exact ⟨by omega, hb', hc', hd⟩
    · have hres := Option.some.inj h
      subst hres
      exact ⟨rfl, by simp, fun c hc => absurd hc (List.not_mem_nil c)⟩
    · obtain ⟨ihmap, ihpw, ihall⟩ := ih _ _ _ h
      refine ⟨ihmap, ihpw, ?_⟩
      intro c hc
      obtain ⟨ha, hb', hc', hd⟩ := ihall c hc
      exact ⟨by omega, hb', hc', hd⟩
    · have hres := Option.some.inj h
      subst hres
      exact ⟨rfl, by simp, fun c hc => absurd hc (List.not_mem_nil c)⟩

/-- With a positive `minChunkSize`, the advance `nextStart` gains at least one
character per iteration, so fuel `|t| - s + 1` always suffices. -/
theorem chunkLoop_isSome (t : List Char) (o : ChunkingOptions)
    (hmin : 1 ≤ o.minChunkSize) :
    ∀ fuel s i, t.length - s < fuel → (chunkLoop t o fuel s i).isSome := by
  intro fuel
  induction fuel with
  | zero =>
    intro s i h
    omega
  | succ n ih =>
    intro s i h
    rw [chunkLoop_succ]
    have hns : s + o.minChunkSize ≤
        max (computeEnd t o s - o.chunkOverlap) (s + o.minChunkSize) :=
      le_max_right _ _
    split_ifs with h1 h2 h3 h4
    · simp
    · have hb2 := (computeEnd_bounds t o s h1).2
      have harith : t.length -
          max (computeEnd t o s - o.chunkOverlap) (s + o.minChunkSize) < n := by
        omega
      have := ih (max (computeEnd t o s - o.chunkOverlap) (s + o.minChunkSize))
        (i + 1) harith
      rcases Option.isSome_iff_exists.mp this with ⟨v, hv⟩
      rw [hv]
      simp
    · simp
    · have hb2 := (computeEnd_bounds t o s h1).2
      have harith : t.length -
          max (computeEnd t o s - o.chunkOverlap) (s + o.minChunkSize) < n := by
        omega
      exact ih _ i harith
    · simp

/-! ### `chunkText` branch equations -/

theorem chunkText_blank_eq (fuel : Nat) (text : List Char) (o : ChunkingOptions)
    (h : jsTrim text = []) : chunkText fuel text o = some [] := by
  unfold chunkText
  rw [if_pos h]

theorem chunkText_single_eq (fuel : Nat) (text : List Char) (o : ChunkingOptions)
    (h1 : jsTrim text ≠ []) (h2 : (normalizeText text).length ≤ o.chunkSize) :
    chunkText fuel text o =
      some [createChunk (normalizeText text) 0 0 (normalizeText text).length
        SourceKind.text singleTitle] := by
  unfold chunkText
  rw [if_neg h1, if_pos h2]

theorem chunkText_loop_eq (fuel : Nat) (text : List Char) (o : ChunkingOptions)
    (h1 : jsTrim text ≠ []) (h2 : o.chunkSize < (normalizeText text).length) :
    chunkText fuel text o = chunkLoop (normalizeText text) o fuel 0 0 := by
  unfold chunkText
  rw [if_neg h1, if_neg (by omega)]

theorem jsTrim_normalizeText (l : List Char) :
    jsTrim (normalizeText l) = normalizeText l := by
  unfold normalizeText
  exact jsTrim_idem _

theorem normalizeText_ne_nil_of_jsTrim (l : List Char) (h : jsTrim l ≠ []) :
    normalizeText l ≠ [] := by
  intro hn
  apply h
  rw [jsTrim_eq_nil_iff]
  have : filterNW (normalizeText l) = [] := by rw [hn]; rfl
  rwa [filterNW_normalizeText] at this

/-! ### The claims about the chunker -/

/-- C1 (confirmed).  Single-chunk short-circuit: whenever the normalized form
of the input (line endings unified, 3+ newlines collapsed to 2, trimmed) is
non-blank and no longer than `chunkSize`, `chunkText` returns exactly one
chunk whose content is that normalized text — which is its own trim, so also
the trimmed normalized text — for every configuration, in particular also
when that text is shorter than `minChunkSize`. -/
theorem chunkText_single_chunk (fuel : Nat) (text : List Char) (o : ChunkingOptions)
    (h1 : normalizeText text ≠ []) (h2 : (normalizeText text).length ≤ o.chunkSize) :
    ∃ c, chunkText fuel text o = some [c] ∧ c.content = normalizeText text ∧
      c.content = jsTrim (normalizeText text) := by
  have ht := jsTrim_ne_nil_of_normalize text h1
  exact ⟨_, chunkText_single_eq fuel text o ht h2, rfl,
    (jsTrim_normalizeText text).symm⟩

/-- Witness for C1 at `text = "hi"` with the default options
(`minChunkSize = 100 > 2`, exercising the bypass of the minimum size). -/
theorem chunkText_single_chunk_witness :
    normalizeText "hi".toList ≠ [] ∧
      (normalizeText "hi".toList).length ≤ DEFAULT_CHUNKING_OPTIONS.chunkSize ∧
      ∃ c, chunkText 1 "hi".toList DEFAULT_CHUNKING_OPTIONS = some [c] ∧
        c.content = normalizeText "hi".toList ∧
        c.content = jsTrim (normalizeText "hi".toList) :=
  ⟨by decide, by decide,
    chunkText_single_chunk 1 "hi".toList DEFAULT_CHUNKING_OPTIONS (by decide) (by decide)⟩

/-- C2 (corrected).  Chunk-list invariant, with the two repairs the code
forces: the offsets index the *normalized* text (not the raw input, whose
leading whitespace and collapsed line endings shift positions), and
`startIndex < endIndex` needs `minChunkSize ≥ 1` (with `minChunkSize = 0` and
`chunkSize = 0` the loop emits an empty chunk with `startIndex = endIndex`).
Under those repairs: indices are `0..n-1` in emission order, start offsets
strictly increase, and every chunk's content is the trimmed slice
`[startIndex, endIndex)` of the normalized text with
`0 ≤ startIndex < endIndex ≤ length`. -/
theorem chunkText_chunk_invariant (fuel : Nat) (text : List Char)
    (o : ChunkingOptions) (hmin : 1 ≤ o.minChunkSize) (res : List DocumentChunk)
    (h : chunkText fuel text o = some res) :
    res.map DocumentChunk.index = List.range res.length ∧
    res.Pairwise (fun a b => a.startIndex < b.startIndex) ∧
    ∀ c ∈ res, c.startIndex < c.endIndex ∧
      c.endIndex ≤ (normalizeText text).length ∧
      c.content = jsTrim (jsSlice (normalizeText text) c.startIndex c.endIndex) := by
  unfold chunkText at h
  split_ifs at h with hb hsingle
  · have hres := Option.some.inj h
    subst hres
    exact ⟨rfl, by simp, fun c hc => absurd hc (List.not_mem_nil c)⟩
  · have hres := Option.some.inj h
    subst hres
    have hne := normalizeText_ne_nil_of_jsTrim text hb
    refine ⟨rfl, by simp, ?_⟩
    intro c hc
    rw [List.mem_singleton] at hc
    subst hc
    refine ⟨?_, le_refl _, ?_⟩
    · rw [createChunk_startIndex, createChunk_endIndex]
      exact List.length_pos.mpr hne
    · rw [createChunk_content, createChunk_startIndex, createChunk_endIndex]
      unfold jsSlice
      rw [List.drop_zero, Nat.sub_zero, List.take_length, jsTrim_normalizeText]
  · obtain ⟨hmap, hpw, hall⟩ := chunkLoop_spec (normalizeText text) o hmin fuel 0 0 res h
    refine ⟨by rw [hmap, List.range_eq_range'], hpw, ?_⟩
    intro c hc
    obtain ⟨_, h2, h3, h4⟩ := hall c hc
    exact ⟨h2, h3, h4⟩

/-- Counterexample for C2 as stated: on input `"\n\nabc"` the sole chunk has
content `"abc"` with offsets `[0, 3)`, but the trimmed slice `[0, 3)` of the
*source* text is `"a"` — the offsets index the normalized text, not the
original. -/
theorem chunkText_offsets_not_in_source :
    (chunkText 1 "\n\nabc".toList DEFAULT_CHUNKING_OPTIONS).map
        (List.map (fun c => (c.content, c.startIndex, c.endIndex))) =
      some [("abc".toList, 0, 3)] ∧
    jsTrim (jsSlice "\n\nabc".toList 0 3) ≠ "abc".toList := by
  constructor
  · decide
  · decide

/-- C3 (corrected).  The multi-chunk scanning loop does *not* keep every
chunk within `chunkSize` characters: sentence snapping uses
`lastIndexOf('.', endIndex)`, which may find the period exactly at the
tentative cut `startIndex + chunkSize` and extend the chunk to
`chunkSize + 1` characters.  The provable bound is `chunkSize + 1`
(paragraph snapping can move the cut two further, but the two added
characters are the newline pair, which the trim removes). -/
theorem chunkText_loop_content_bound (fuel : Nat) (text : List Char)
    (o : ChunkingOptions) (res : List DocumentChunk)
    (h : chunkText fuel text o = some res)
    (hlong : o.chunkSize < (normalizeText text).length) :
    ∀ c ∈ res, c.content.length ≤ o.chunkSize + 1 := by
  unfold chunkText at h
  split_ifs at h with hb hsingle
  · have hres := Option.some.inj h
    subst hres
    intro c hc
    exact absurd hc (List.not_mem_nil c)
  · omega
  · exact chunkLoop_contentBound (normalizeText text) o fuel 0 0 res h

/-- Witness for C3's amended bound on a concrete multi-chunk run. -/
theorem chunkText_loop_content_bound_witness :
    (chunkText 20 "abcdef.gh\n\nijklmnopqrstuvwx".toList
        optSnap =
      some ((chunkText 20 "abcdef.gh\n\nijklmnopqrstuvwx".toList
        optSnap).getD [])) ∧
      (12 : Nat) < (normalizeText "abcdef.gh\n\nijklmnopqrstuvwx".toList).length ∧
      ∀ c ∈ (chunkText 20 "abcdef.gh\n\nijklmnopqrstuvwx".toList
        optSnap).getD [], c.content.length ≤ 12 + 1 :=
  ⟨by decide, by decide,
    chunkText_loop_content_bound 20 "abcdef.gh\n\nijklmnopqrstuvwx".toList
      optSnap _ (by decide) (by decide)⟩

/-- Counterexample for C3 as stated: with `chunkSize = 10` on a 16-character
input, the loop emits a chunk of 11 characters (`"aaaaaaaaaa."` — the period
sits exactly at the tentative cut). -/
theorem chunkText_snap_exceeds_chunkSize :
    (10 : Nat) < (normalizeText "aaaaaaaaaa.bbbbb".toList).length ∧
    (chunkText 20 "aaaaaaaaaa.bbbbb".toList
        optPeriod).map
        (List.map (fun c => c.content.length)) = some [11] := by
  constructor
  · decide
  · decide

/-- C4 (corrected).  Termination holds for every configuration with
`minChunkSize ≥ 1`: the floor `startIndex + minChunkSize` on `nextStart`
advances the window by at least one character per iteration — in particular
`chunkOverlap ≥ chunkSize` is tolerated.  (With `minChunkSize = 0` the floor
is vacuous and the loop can fail to advance; see the counterexample.) -/
theorem chunkText_terminates_of_minChunkSize_pos (text : List Char)
    (o : ChunkingOptions) (hmin : 1 ≤ o.minChunkSize) :
    ChunkingTerminatesOn text o := by
  refine ⟨(normalizeText text).length + 1, ?_⟩
  unfold chunkText
  split_ifs with hb hsingle
  · rfl
  · rfl
  · exact chunkLoop_isSome (normalizeText text) o hmin _ 0 0 (by omega)

/-- Witness for C4 with `chunkOverlap = chunkSize` (the configuration the
claim singles out) and `minChunkSize = 1`. -/
theorem chunkText_terminates_witness :
    1 ≤ (1 : Nat) ∧ ChunkingTerminatesOn "abcdef".toList
      optTight :=
  ⟨by decide, chunkText_terminates_of_minChunkSize_pos "abcdef".toList
    optTight (by decide)⟩

/-- With `minChunkSize = 0`, `chunkSize = 1`, `chunkOverlap = 1` on `"ab"`
the loop state repeats (`nextStart = max(1 - 1, 0 + 0) = 0 < 1`), so no
amount of fuel finishes it. -/
theorem chunkLoop_stuck_on_ab :
    ∀ fuel i, chunkLoop "ab".toList
      optStuck fuel 0 i = none := by
  intro fuel
  induction fuel with
  | zero => intro i; rfl
  | succ n ih =>
    intro i
    rw [chunkLoop_succ]
    rw [if_pos (by decide : (0 : Nat) < ("ab".toList).length)]
    rw [show computeEnd "ab".toList
      optStuck 0 = 1 from by decide]
    rw [if_pos (by decide), if_neg (by decide)]
    have hmax : max (1 - optStuck.chunkOverlap) (0 + optStuck.minChunkSize) = 0 := by
      decide
    rw [hmax, ih (i + 1)]
    rfl

/-- Counterexample for C4 as stated: the configuration
`{chunkSize := 1, chunkOverlap := 1, minChunkSize := 0}` (allowed by the
claim's "every configuration") makes `chunkText` diverge on `"ab"`. -/
theorem chunkText_nonterminating_config :
    ¬ ChunkingTerminatesOn "ab".toList
      optStuck := by
  rintro ⟨fuel, hsome⟩
  unfold chunkText at hsome
  rw [if_neg (by decide), if_neg (by decide)] at hsome
  rw [show normalizeText "ab".toList = "ab".toList from by decide] at hsome
  rw [chunkLoop_stuck_on_ab fuel 0] at hsome
  exact absurd hsome (by decide)

/-- Witness for C2's amended invariant on a four-chunk run. -/
theorem chunkText_chunk_invariant_witness :
    1 ≤ optSnap.minChunkSize ∧
    (chunkText 20 "abcdef.gh\n\nijklmnopqrstuvwx".toList
        optSnap =
      some ((chunkText 20 "abcdef.gh\n\nijklmnopqrstuvwx".toList
        optSnap).getD [])) ∧
    (((chunkText 20 "abcdef.gh\n\nijklmnopqrstuvwx".toList
        optSnap).getD []).map DocumentChunk.index =
      List.range ((chunkText 20 "abcdef.gh\n\nijklmnopqrstuvwx".toList
        optSnap).getD []).length ∧
    ((chunkText 20 "abcdef.gh\n\nijklmnopqrstuvwx".toList
        optSnap).getD []).Pairwise
        (fun a b => a.startIndex < b.startIndex) ∧
    ∀ c ∈ (chunkText 20 "abcdef.gh\n\nijklmnopqrstuvwx".toList
        optSnap).getD [], c.startIndex < c.endIndex ∧
      c.endIndex ≤ (normalizeText "abcdef.gh\n\nijklmnopqrstuvwx".toList).length ∧
      c.content = jsTrim (jsSlice (normalizeText "abcdef.gh\n\nijklmnopqrstuvwx".toList)
        c.startIndex c.endIndex)) :=
  ⟨by decide, by decide,
    chunkText_chunk_invariant 20 "abcdef.gh\n\nijklmnopqrstuvwx".toList
      optSnap (by decide) _ (by decide)⟩

/-- C5 (corrected).  Blank input yields the empty chunk list, and a
*non-blank* input of exactly `chunkSize` characters yields exactly one chunk
(the normalization never lengthens the text, so the short-circuit applies).
The third part of the claim — one character beyond `chunkSize` gives at least
two chunks — fails and is dropped; see the counterexample. -/
theorem chunkText_length_boundary_cases :
    (∀ fuel text o, jsTrim text = [] → chunkText fuel text o = some []) ∧
    (∀ fuel (text : List Char) (o : ChunkingOptions), jsTrim text ≠ [] →
      text.length = o.chunkSize → ∃ c, chunkText fuel text o = some [c]) := by
  constructor
  · intro fuel text o h
    exact chunkText_blank_eq fuel text o h
  · intro fuel text o h1 h2
    refine ⟨_, chunkText_single_eq fuel text o h1 ?_⟩
    calc (normalizeText text).length ≤ text.length := length_normalizeText_le text
      _ = o.chunkSize := h2

/-- Witness for C5: the whitespace-only input `"  "` and the exact-size input
`"abc"` with `chunkSize = 3`. -/
theorem chunkText_length_boundary_cases_witness :
    (jsTrim "  ".toList = [] ∧
      chunkText 3 "  ".toList DEFAULT_CHUNKING_OPTIONS = some []) ∧
    (jsTrim "abc".toList ≠ [] ∧
      ("abc".toList).length =
        optExact.chunkSize ∧
      ∃ c, chunkText 3 "abc".toList
        optExact = some [c]) :=
  ⟨⟨by decide, chunkText_length_boundary_cases.1 3 "  ".toList
      DEFAULT_CHUNKING_OPTIONS (by decide)⟩,
    ⟨by decide, by decide, chunkText_length_boundary_cases.2 3 "abc".toList
      optExact (by decide) (by decide)⟩⟩

/-- Counterexample for C5's third part: `"ab"` is one character longer than
`chunkSize = 1`, yet `chunkText` returns exactly one chunk (the advance
`nextStart = max(1 - 0, 0 + 1) = 1 ≥ endIndex` stops the loop after the
first window, dropping the remainder). -/
theorem chunkText_one_char_longer_single :
    ("ab".toList).length =
      optOne.chunkSize + 1 ∧
    (chunkText 5 "ab".toList
      optOne).map List.length = some 1 := by
  constructor
  · decide
  · decide

/-- C6 (confirmed).  Every emitted chunk either meets `minChunkSize` (the
loop's emission guard) or is the sole chunk of its document (the single-chunk
short-circuit, which skips the guard). -/
theorem chunkText_minSize_or_sole (fuel : Nat) (text : List Char)
    (o : ChunkingOptions) (res : List DocumentChunk)
    (h : chunkText fuel text o = some res) :
    ∀ c ∈ res, o.minChunkSize ≤ c.content.length ∨ res = [c] := by
  unfold chunkText at h
  split_ifs at h with hb hsingle
  · have hres := Option.some.inj h
    subst hres
    intro c hc
    exact absurd hc (List.not_mem_nil c)
  · have hres := Option.some.inj h
    subst hres
    intro c hc
    rw [List.mem_singleton] at hc
    subst hc
    right
    rfl
  · intro c hc
    left
    exact chunkLoop_minSize (normalizeText text) o fuel 0 0 res h c hc

/-- Witness for C6 at a short input where the sole-chunk disjunct is the one
that holds (`2 < minChunkSize = 100`). -/
theorem chunkText_minSize_or_sole_witness :
    (chunkText 1 "hi".toList DEFAULT_CHUNKING_OPTIONS =
      some ((chunkText 1 "hi".toList DEFAULT_CHUNKING_OPTIONS).getD [])) ∧
    ∀ c ∈ (chunkText 1 "hi".toList DEFAULT_CHUNKING_OPTIONS).getD [],
      DEFAULT_CHUNKING_OPTIONS.minChunkSize ≤ c.content.length ∨
        (chunkText 1 "hi".toList DEFAULT_CHUNKING_OPTIONS).getD [] = [c] :=
  ⟨by decide, chunkText_minSize_or_sole 1 "hi".toList DEFAULT_CHUNKING_OPTIONS _
    (by decide)⟩

/-! ### The claims about the assembler -/

/-- C7 (confirmed).  When extraction succeeds (and chunking finishes),
`processDocument` reports success with a `completed` document whose
`chunkCount` equals the number of chunks; when extraction throws, it reports
the failure message with an empty chunk list and no document. -/
theorem processDocument_error_eq (fuel : Nat) (docId : List Char)
    (src : DocSource) (o : ChunkingOptions) (msg : List Char)
    (hext : runExtraction src = Except.error msg) :
    processDocument fuel docId src o =
      some { document := none, chunks := [], success := false,
             errorMsg := some msg } := by
  unfold processDocument
  rw [hext]

theorem processDocument_ok_eq (fuel : Nat) (docId : List Char)
    (src : DocSource) (o : ChunkingOptions) (content title : List Char)
    (kind : SourceKind)
    (hext : runExtraction src = Except.ok (content, title, kind)) :
    processDocument fuel docId src o =
      match chunkText fuel content o with
      | none => none
      | some rawChunks =>
        some { document := some { id := docId
                                  title := title
                                  content := content
                                  source := kind
                                  chunkCount := (rawChunks.map (fun c =>
                                    { c with documentId := docId, documentTitle := title })).length
                                  status := DocStatus.completed
                                  chunks := rawChunks.map (fun c =>
                                    { c with documentId := docId, documentTitle := title }) }
               chunks := rawChunks.map (fun c =>
                 { c with documentId := docId, documentTitle := title })
               success := true
               errorMsg := none } := by
  unfold processDocument
  rw [hext]

theorem processDocument_contract (fuel : Nat) (docId : List Char)
    (src : DocSource) (o : ChunkingOptions) (r : DocumentProcessingResult)
    (h : processDocument fuel docId src o = some r) :
    match runExtraction src with
    | .ok _ => r.success = true ∧ ∃ d, r.document = some d ∧
        d.status = DocStatus.completed ∧ d.chunkCount = r.chunks.length
    | .error m => r.success = false ∧ r.errorMsg = some m ∧ r.chunks = [] ∧
        r.document = none := by
  cases hext : runExtraction src with
  | error m =>
    rw [processDocument_error_eq fuel docId src o m hext] at h
    have hr := Option.some.inj h
    subst hr
    exact ⟨rfl, rfl, rfl, rfl⟩
  | ok v =>
    obtain ⟨content, title, kind⟩ := v
    rw [processDocument_ok_eq fuel docId src o content title kind hext] at h
    cases hck : chunkText fuel content o with
    | none =>
      rw [hck] at h
      exact absurd h (by simp)
    | some rawChunks =>
      rw [hck] at h
      have hr := Option.some.inj h
      subst hr
      exact ⟨rfl, _, rfl, rfl, rfl⟩

/-- Witness for C7 on the error branch: a pdf whose parse throws. -/
theorem processDocument_contract_witness :
    (processDocument 1 "d1".toList
        (DocSource.pdf (Except.error "boom".toList) "f.pdf".toList)
        DEFAULT_CHUNKING_OPTIONS = some failedResult) ∧
    (failedResult.success = false ∧
      failedResult.errorMsg = some "boom".toList ∧
      failedResult.chunks = [] ∧
      failedResult.document = none) :=
  ⟨by decide,
    processDocument_contract 1 "d1".toList
      (DocSource.pdf (Except.error "boom".toList) "f.pdf".toList)
      DEFAULT_CHUNKING_OPTIONS failedResult (by decide)⟩

/-- C8 (code bug).  On a url-sourced document the document's `source` field
is `url`, but every chunk's metadata carries `source = text`: `chunkText`
hardcodes `'text'` in both `createChunk` call sites, and `processDocument`
patches each chunk's `documentTitle` (and `documentId`) but never its
`source`.  The evaluation below exhibits the mismatch — and shows that the
id and title halves of the claim do hold. -/
theorem processDocument_chunk_source_mismatch :
    (processDocument 5 "d1".toList
        (DocSource.url (Except.ok ("hello world".toList, some "Example".toList))
          "site".toList)
        DEFAULT_CHUNKING_OPTIONS).map
        (fun r => (r.document.map RagDocument.source,
          r.chunks.map DocumentChunk.source,
          r.chunks.map DocumentChunk.documentId,
          r.chunks.map DocumentChunk.documentTitle)) =
      some (some SourceKind.url, [SourceKind.text], ["d1".toList],
        ["Example".toList]) ∧
    SourceKind.text ≠ SourceKind.url := by
  constructor
  · decide
  · decide

/-! ### The claims about the vector-store query -/

theorem keepMatch_score {th : ℚ} {m : PineconeMatch} (h : keepMatch th m = true) :
    ∃ sc, m.score = some sc ∧ sc ≠ 0 ∧ th ≤ sc ∧
      (toSearchResult m).score = sc ∧ scoreOf m = sc := by
  unfold keepMatch at h
  cases hs : m.score with
  | none =>
    rw [hs] at h
    have h' : (false : Bool) = true := h
    exact absurd h' (by decide)
  | some sc =>
    rw [hs] at h
    have h' : (if sc = 0 then false else decide (th ≤ sc)) = true := h
    by_cases h0 : sc = 0
    · rw [if_pos h0] at h'
      exact absurd h' (by decide)
    · rw [if_neg h0] at h'
      refine ⟨sc, rfl, h0, of_decide_eq_true h', ?_, ?_⟩
      · show jsOrRat m.score 0 = sc
        rw [hs]
        show (if sc = 0 then (0 : ℚ) else sc) = sc
        rw [if_neg h0]
      · show jsOrRat m.score 0 = sc
        rw [hs]
        show (if sc = 0 then (0 : ℚ) else sc) = sc
        rw [if_neg h0]

theorem caller_threshold_le (o : QueryOptions) (t : ℚ) (h : o.threshold = some t) :
    t ≤ effThreshold o := by
  have he : effThreshold o = jsOrRat (some t) (mkRat 3 10) := by
    unfold effThreshold
    rw [h]
  rw [he]
  show t ≤ if t = 0 then mkRat 3 10 else t
  by_cases h0 : t = 0
  · rw [if_pos h0, h0]
    decide
  · rw [if_neg h0]

theorem mem_queryVectors {o : QueryOptions} {ms : List PineconeMatch}
    {r : VectorSearchResult} (h : r ∈ queryVectors o ms) :
    ∃ m, m ∈ ms ∧ keepMatch (effThreshold o) m = true ∧ r = toSearchResult m := by
  unfold queryVectors at h
  rw [List.mem_map] at h
  obtain ⟨m, hm, hr⟩ := h
  rw [List.mem_filter] at hm
  exact ⟨m, hm.1, hm.2, hr.symm⟩

/-- C10 (confirmed).  The options are defaulted with `||`, so a threshold of
`0` becomes `0.3` and a `topK` of `0` becomes `5`; and the filter predicate
`match.score && match.score >= threshold` drops any match with an absent or
zero score regardless of the threshold, so every returned result has a
nonzero score at or above the defaulted threshold. -/
theorem queryVectors_falsy_defaults :
    (∀ k : Option Nat, effThreshold ⟨k, some 0⟩ = mkRat 3 10) ∧
    (∀ th : Option ℚ, effTopK ⟨some 0, th⟩ = 5) ∧
    (∀ (o : QueryOptions) (m : PineconeMatch),
      m.score = none ∨ m.score = some 0 → keepMatch (effThreshold o) m = false) ∧
    (∀ (o : QueryOptions) (ms : List PineconeMatch) (r : VectorSearchResult),
      r ∈ queryVectors o ms → r.score ≠ 0 ∧ effThreshold o ≤ r.score) := by
  refine ⟨fun k => rfl, fun th => rfl, ?_, ?_⟩
  · intro o m h
    rcases h with h | h <;> simp [keepMatch, h]
  · intro o ms r hr
    obtain ⟨m, hm, hk, hr⟩ := mem_queryVectors hr
    obtain ⟨sc, hsc, h0, hth, hres, hraw⟩ := keepMatch_score hk
    subst hr
    rw [hres]
    exact ⟨h0, hth⟩

/-- Witness for C10: a zero threshold defaults to `0.3`, a zero `topK` to
`5`, a zero-scored match is rejected, and a surviving result has a nonzero
score above the default. -/
theorem queryVectors_falsy_defaults_witness :
    effThreshold ⟨none, some 0⟩ = mkRat 3 10 ∧ effTopK ⟨some 0, none⟩ = 5 ∧
    keepMatch (effThreshold ⟨none, none⟩) ⟨"x".toList, some 0, none⟩ = false ∧
    (toSearchResult ⟨"a".toList, some (mkRat 1 2), none⟩ ∈
        queryVectors ⟨none, none⟩ [⟨"a".toList, some (mkRat 1 2), none⟩] ∧
      (toSearchResult ⟨"a".toList, some (mkRat 1 2), none⟩).score ≠ 0 ∧
      effThreshold ⟨none, none⟩ ≤
        (toSearchResult ⟨"a".toList, some (mkRat 1 2), none⟩).score) :=
  ⟨queryVectors_falsy_defaults.1 none, queryVectors_falsy_defaults.2.1 none,
    queryVectors_falsy_defaults.2.2.1 ⟨none, none⟩ ⟨"x".toList, some 0, none⟩
      (Or.inr rfl),
    by decide,
    queryVectors_falsy_defaults.2.2.2 ⟨none, none⟩
      [⟨"a".toList, some (mkRat 1 2), none⟩] (toSearchResult ⟨"a".toList, some (mkRat 1 2), none⟩)
      (by decide)⟩

end AISDK
